import Mathlib

/-!
Shallow embedding of the namegen program (file `src/main.py`).

Python strings are modelled as Lean `String`s: both are sequences of Unicode
scalar values, and Python `len` agrees with `String.length`.  The `pykakasi`
converter used by `to_romaji` is an external library, so `to_romaji` is
parameterised by the converter output `conv : String → String` (the joined
hepburn parts).  Python `str` methods applied by the program (`strip`,
`title`, `lower`, `endswith`, `replace`) are modelled character-exactly on
the ASCII case range, which covers every string the program feeds them.
Python `set`s are modelled as duplicate-free lists (insertion-ordered; the
program only ever sorts them before use, so insertion order is irrelevant).
-/

/-- Whitespace characters recognised by Python `str.strip` (ASCII subset:
space, tab, newline, carriage return, vertical tab, form feed). -/
def isPyWs (c : Char) : Bool :=
  c.toNat = 32 || c.toNat = 9 || c.toNat = 10 || c.toNat = 13 || c.toNat = 11 || c.toNat = 12

/-- Python `str.strip()` on the character list: drop leading whitespace, then
drop trailing whitespace. -/
def stripChars (l : List Char) : List Char :=
  ((l.dropWhile isPyWs).reverse.dropWhile isPyWs).reverse

/-- Python `str.strip()`. -/
def pyStrip (s : String) : String := String.mk (stripChars s.data)

/-- ASCII letter test, matching both the regex class `[A-Za-z]` and the set of
cased ASCII characters used by Python `str.title`. -/
def isAsciiLetter (c : Char) : Bool :=
  (decide ('A' ≤ c) && decide (c ≤ 'Z')) || (decide ('a' ≤ c) && decide (c ≤ 'z'))

/-- ASCII uppercasing of one character, as Python `str.upper`/`str.title` act
on the ASCII range (other characters returned unchanged). -/
def pyUpperChar (c : Char) : Char :=
  if decide ('a' ≤ c) && decide (c ≤ 'z') then Char.ofNat (c.toNat - 32) else c

/-- ASCII lowercasing of one character, as Python `str.lower` acts on the
ASCII range (other characters returned unchanged). -/
def pyLowerChar (c : Char) : Char :=
  if decide ('A' ≤ c) && decide (c ≤ 'Z') then Char.ofNat (c.toNat + 32) else c

/-- Python `str.title` on a character list: a cased character after a
non-cased one is uppercased, a cased character after a cased one is
lowercased, non-cased characters pass through. -/
def pyTitleChars (prevCased : Bool) : List Char → List Char
  | [] => []
  | c :: cs =>
    (if isAsciiLetter c then (if prevCased then pyLowerChar c else pyUpperChar c) else c)
      :: pyTitleChars (isAsciiLetter c) cs

/-- Python `str.title()`. -/
def pyTitle (s : String) : String := String.mk (pyTitleChars false s.data)

/-- Python `str.lower()`. -/
def pyLower (s : String) : String := String.mk (s.data.map pyLowerChar)

/-- Python `.replace(" ", "-")`: with a one-character pattern this is a
character map. -/
def pyReplaceSpaceHyphen (s : String) : String :=
  String.mk (s.data.map (fun c => if c = ' ' then '-' else c))

/-- The slug printed by `main`: `result.lower().replace(" ", "-")`. -/
def slugOf (s : String) : String := pyReplaceSpaceHyphen (pyLower s)

/-- Embedding of `to_romaji` (src/main.py lines 19-24): join the hepburn
parts (the external converter, abstracted as `conv`), strip whitespace, then
title-case. -/
def to_romaji (conv : String → String) (text : String) : String :=
  pyTitle (pyStrip (conv text))

/-- A character allowed after the first by the validation regex class
`[A-Za-z' -]`: letter, apostrophe, hyphen or space. -/
def nameTailChar (c : Char) : Bool :=
  isAsciiLetter c || c = '\x27' || c = '-' || c = ' '

/-- Full match of the validation pattern: one leading ASCII letter followed
by zero or more of letter, apostrophe, hyphen, space (src/main.py line 193). -/
def matchesNamePattern (s : String) : Bool :=
  match s.data with
  | [] => false
  | c :: cs => isAsciiLetter c && cs.all nameTailChar

/-- The whole candidate validation of src/main.py lines 192-194: length
between 2 and 14 inclusive and a full pattern match. -/
def isValidRomaji (s : String) : Bool :=
  decide (2 ≤ s.length) && decide (s.length ≤ 14) && matchesNamePattern s

/-- One character of the class `[぀-ヿ]` (Hiragana/Katakana blocks). -/
def isKanaChar (c : Char) : Bool :=
  decide (0x3040 ≤ c.toNat) && decide (c.toNat ≤ 0x30FF)

/-- Full match of `[぀-ヿ]+` (src/main.py line 185): non-empty and
every character in the kana range. -/
def isKanaOnly (s : String) : Bool :=
  !s.data.isEmpty && s.data.all isKanaChar

/-- Python `min(xs, key=len)` scan with current best: a later element
replaces the best only when strictly shorter, so ties keep the earliest. -/
def minByLenAux (best : String) : List String → String
  | [] => best
  | x :: xs => if x.length < best.length then minByLenAux x xs else minByLenAux best xs

/-- Python `min(l, key=len)`; `none` on the empty list (where Python raises). -/
def minByLen : List String → Option String
  | [] => none
  | x :: xs => some (minByLenAux x xs)

/-- Base-reading choice of src/main.py lines 181-189: with kana readings
present, restrict to the all-kana subset when non-empty (`only_kana or
kana_readings`) and take the shortest; otherwise take the shortest kanji
reading. -/
def chooseBase (kana_readings kanji_readings : List String) : Option String :=
  if !kana_readings.isEmpty then
    minByLen
      (let only_kana := kana_readings.filter isKanaOnly
       if only_kana.isEmpty then kana_readings else only_kana)
  else
    minByLen kanji_readings

/-- Specification-side predicate for C1: `b` occurs in `l`, no element of
`l` is shorter, and every element strictly before the occurrence is strictly
longer (shortest, ties broken by first-encountered order). -/
def IsFirstShortest (l : List String) (b : String) : Prop :=
  ∃ i : Fin l.length,
    l.get i = b ∧ (∀ x ∈ l, b.length ≤ x.length) ∧ ∀ x ∈ l.take i.val, b.length < x.length

instance (l : List String) (b : String) : Decidable (IsFirstShortest l b) := by
  unfold IsFirstShortest
  infer_instance

/-- One XML element as seen through ElementTree: a tag and its text (the
code treats missing text as falsy, i.e. as the empty string). -/
structure XElem where
  tag : String
  text : String
  deriving DecidableEq

/-- One node delivered by the `iterparse` end-event stream: its own tag and
the elements produced by `elem.iter()`. -/
structure XNode where
  tag : String
  elems : List XElem
  deriving DecidableEq

/-- Python `tag.lower().endswith(name.lower())` of the helper `_ends`
(src/main.py lines 141-142). -/
def tagEndsWith (tag name : String) : Bool :=
  (tag.data.map pyLowerChar).reverse.take (name.data.map pyLowerChar).length
    == (name.data.map pyLowerChar).reverse

/-- Helper `_text_lower` (src/main.py lines 144-145): strip then lowercase. -/
def textLower (e : XElem) : String := pyLower (pyStrip e.text)

def nameTypeTag : String := "name_type"

def rebTag : String := "reb"

def kebTag : String := "keb"

def entryTag : String := "entry"

/-- The collected `name_types` of one entry (src/main.py lines 162-166):
lowercased stripped texts of elements whose tag ends with `name_type` and
whose text is non-empty. -/
def entryNameTypes (es : List XElem) : List String :=
  (es.filter (fun e => tagEndsWith e.tag nameTypeTag && e.text != "")).map textLower

/-- `has_name_type` (src/main.py line 167). -/
def hasNameType (es : List XElem) : Bool := !(entryNameTypes es).isEmpty

/-- `kana_readings` (src/main.py line 174): texts of elements whose tag ends
with `reb` and whose text is non-empty. -/
def kanaReadings (es : List XElem) : List String :=
  (es.filter (fun e => tagEndsWith e.tag rebTag && e.text != "")).map XElem.text

/-- `kanji_readings` (src/main.py line 175): texts of elements whose tag
ends with `keb` and whose text is non-empty. -/
def kanjiReadings (es : List XElem) : List String :=
  (es.filter (fun e => tagEndsWith e.tag kebTag && e.text != "")).map XElem.text

/-- Strict lexicographic comparison of character lists by code point,
Python string `<`. -/
def lexLtChars : List Char → List Char → Bool
  | [], [] => false
  | [], _ :: _ => true
  | _ :: _, [] => false
  | a :: as, b :: bs =>
    if a < b then true
    else if b < a then false
    else lexLtChars as bs

/-- Python string `<=` by code points: `a ≤ b` iff not `b < a`. -/
def strLe (a b : String) : Bool := !lexLtChars b.data a.data

/-- Python `sorted` on strings: ascending lexicographic order (modelled by
insertion sort, which like Python sorted is stable; on the distinct elements
of a set stability is vacuous). -/
def pySorted (l : List String) : List String :=
  List.insertionSort (fun a b => strLe a b = true) l

/-- Python `set.add`: append the element unless already present (the list
models the set as its insertion-ordered distinct elements). -/
def addName (s : List String) (x : String) : List String :=
  if x ∈ s then s else s ++ [x]

/-- One iteration of the parse loop (src/main.py lines 155-204) on the state
`(given_names, fallback_candidates)`: skip non-entry end events, skip entries
with no readings, choose the base reading, romanise, validate, and add the
result to the set selected by `has_name_type`. -/
def stepEntry (conv : String → String) (st : List String × List String) (node : XNode) :
    List String × List String :=
  if !tagEndsWith node.tag entryTag then st
  else
    let kana := kanaReadings node.elems
    let kanji := kanjiReadings node.elems
    if kana.isEmpty && kanji.isEmpty then st
    else
      match chooseBase kana kanji with
      | none => st
      | some base =>
        let romaji := to_romaji conv base
        if !isValidRomaji romaji then st
        else if hasNameType node.elems then (addName st.1 romaji, st.2)
        else (st.1, addName st.2 romaji)

/-- The two sets accumulated over the whole event stream. -/
def collectNames (conv : String → String) (stream : List XNode) : List String × List String :=
  stream.foldl (stepEntry conv) ([], [])

/-- Python set union `given_names | fallback_candidates` on the list model. -/
def setUnion (a b : List String) : List String := b.foldl addName a

def noDataMsg : String := "No Japanese names found after parsing."

/-- Embedding of `parse_japanese_names` (src/main.py lines 138-215) over an
explicit event stream: accumulate both sets, union them, fail when the union
is empty, otherwise return the sorted list. -/
def parse_japanese_names (conv : String → String) (stream : List XNode) :
    Except String (List String) :=
  let st := collectNames conv stream
  let combined := setUnion st.1 st.2
  if combined.isEmpty then Except.error noDataMsg
  else Except.ok (pySorted combined)

/-- Variant of `stepEntry` with the `has_name_type` classification removed:
every accepted romaji goes into one single set.  Used to state that the
classification has no effect on the output (C3). -/
def stepEntryAll (conv : String → String) (st : List String) (node : XNode) : List String :=
  if !tagEndsWith node.tag entryTag then st
  else
    let kana := kanaReadings node.elems
    let kanji := kanjiReadings node.elems
    if kana.isEmpty && kanji.isEmpty then st
    else
      match chooseBase kana kanji with
      | none => st
      | some base =>
        let romaji := to_romaji conv base
        if !isValidRomaji romaji then st
        else addName st romaji

/-- The single set accumulated by the classification-free variant. -/
def collectAll (conv : String → String) (stream : List XNode) : List String :=
  stream.foldl (stepEntryAll conv) []

def edrdgHttpsUrl : String := "https://ftp.edrdg.org/pub/Nihongo/JMnedict.xml.gz"

def usfMirrorUrl : String :=
  "https://ftp.usf.edu/pub/ftp.monash.edu.au/pub/nihongo/JMnedict.xml.gz"

def edrdgHttpUrl : String := "http://ftp.edrdg.org/pub/Nihongo/JMnedict.xml.gz"

def githubMirrorUrl : String :=
  "https://raw.githubusercontent.com/echamudi/jp-resources-mirror/443711d6fab8072f7ec23cdd00f47e8f4d51aa71/EDRDG%20-%202021-06-30/JMnedict.xml.zip"

def jmGzName : String := "JMnedict.xml.gz"

def jmZipName : String := "JMnedict.xml.zip"

/-- One mirror descriptor of the `sources` list (src/main.py lines 60-78):
URL, whether certificate validation is skipped, and the download target. -/
structure MirrorSource where
  url : String
  insecure : Bool
  target : String
  deriving DecidableEq

/-- First mirror (src/main.py line 61): EDRDG over https, certificate
validation skipped (`insecure=True`). -/
def edrdgHttpsSource : MirrorSource :=
  { url := edrdgHttpsUrl, insecure := true, target := jmGzName }

/-- Second mirror (src/main.py lines 62-66): USF mirror. -/
def usfSource : MirrorSource :=
  { url := usfMirrorUrl, insecure := false, target := jmGzName }

/-- Third mirror (src/main.py lines 67-71): EDRDG over plain http. -/
def edrdgHttpSource : MirrorSource :=
  { url := edrdgHttpUrl, insecure := false, target := jmGzName }

/-- Fourth mirror (src/main.py lines 72-77): GitHub mirror, zip target. -/
def githubSource : MirrorSource :=
  { url := githubMirrorUrl, insecure := false, target := jmZipName }

/-- The four JMnedict mirrors in their listed order (src/main.py lines
60-78). -/
def jmnedictSources : List MirrorSource :=
  [edrdgHttpsSource, usfSource, edrdgHttpSource, githubSource]

def allFailedMsg : String := "All JMnedict sources failed"

/-- The mirror loop of src/main.py lines 79-87.  `attempt` abstracts
`_run_curl` (success or a raised error of type `E`); `last` is the
`last_error` accumulator.  The first success stops the chain and returns the
winning source; when the list is exhausted the aggregated `RuntimeError`
carries the last underlying error (`raise ... from last_error`). -/
def tryMirrors {E : Type} (attempt : MirrorSource → Except E Unit) :
    List MirrorSource → Option E → Except (String × Option E) MirrorSource
  | [], last => Except.error (allFailedMsg, last)
  | s :: rest, _last =>
    match attempt s with
    | Except.ok _ => Except.ok s
    | Except.error e => tryMirrors attempt rest (some e)

/-- The whole JMnedict acquisition chain (src/main.py lines 79-87) starting
from `last_error = None` over the fixed mirror list. -/
def downloadJmnedict {E : Type} (attempt : MirrorSource → Except E Unit) :
    Except (String × Option E) MirrorSource :=
  tryMirrors attempt jmnedictSources none

def nlStr : String := "\n"

def emptyStr : String := ""

/-- Splitting a character list into lines at newline characters, as Python
file iteration plus `strip` sees them (the terminators themselves are
removed by `strip`, so keeping them would change nothing). -/
def splitNLChars : List Char → List (List Char)
  | [] => [[]]
  | c :: cs =>
    if c = '\x0a' then [] :: splitNLChars cs
    else
      match splitNLChars cs with
      | [] => [[c]]
      | l :: ls => (c :: l) :: ls

/-- Embedding of `save_to_jp_names_file` (src/main.py lines 232-239): append
`f"{name}\n"` to the file, creating it when absent (`open(..., "a")`).  The
file is modelled as `Option String` (absent, or its contents). -/
def save_to_jp_names_file (file : Option String) (name : String) : Option String :=
  some ((file.getD emptyStr) ++ name ++ nlStr)

/-- Embedding of `load_from_jp_names_file` (src/main.py lines 242-254):
empty list when the file is absent, otherwise every line stripped, keeping
only the non-blank ones, in file order. -/
def load_from_jp_names_file : Option String → List String
  | none => []
  | some contents =>
    ((splitNLChars contents.data).map (fun l => String.mk (stripChars l))).filter
      (fun line => line != emptyStr)

/-- Repeated `save_to_jp_names_file`, one call per name, left to right. -/
def saveAll (file : Option String) (names : List String) : Option String :=
  names.foldl save_to_jp_names_file file

/-- Python `random.choice`: uniform index into the list (modelled by an
arbitrary draw `r` reduced modulo the length); raises `IndexError` (`none`)
on an empty sequence. -/
def randomChoice (l : List String) (r : Nat) : Option String :=
  match l with
  | [] => none
  | x :: xs => some ((x :: xs).get ⟨r % (x :: xs).length, Nat.mod_lt _ (Nat.succ_pos _)⟩)

def spaceStr : String := " "

/-- Embedding of `generate_name` (src/main.py lines 227-229): one random
element of each list joined by a single space; `none` models the
`IndexError` raised when either list is empty. -/
def generate_name (jp_names west_surnames : List String) (r1 r2 : Nat) : Option String :=
  match randomChoice jp_names r1, randomChoice west_surnames r2 with
  | some a, some b => some (a ++ spaceStr ++ b)
  | _, _ => none

def noNamesMsg : String := "No Japanese names available. Please check data files."

/-- Embedding of `main` (src/main.py lines 276-296) after data preparation:
given the loaded given-name list and surname list and the two random draws,
return the function result paired with the lines printed to stdout, or
`Except.error` for an uncaught exception. -/
def pyMain (jp_names west_surnames : List String) (r1 r2 : Nat) :
    Except Unit (Nat × List String) :=
  if jp_names.isEmpty then Except.ok (1, [noNamesMsg])
  else
    match generate_name jp_names west_surnames r1 r2 with
    | none => Except.error ()
    | some result => Except.ok (0, [result, slugOf result])

/-- Process exit status of the script (src/main.py lines 299-300): the
module guard calls `main()` and discards its return value, so the
interpreter exits 0 whenever `main` returns, and 1 only when an exception
propagates. -/
def scriptExitCode (jp_names west_surnames : List String) (r1 r2 : Nat) : Nat :=
  match pyMain jp_names west_surnames r1 r2 with
  | Except.ok _ => 0
  | Except.error _ => 1

/-- Concrete kana reading from the spec's shortest-reading example. -/
def aikoKana : String := "あいこ"

/-- Concrete compound kana reading from the spec's shortest-reading example. -/
def aikotarouKana : String := "あいこたろう"

/-- Concrete kanji reading used to exercise the kanji branch. -/
def nakaKanji : String := "中"

/-- Concrete romanised given name from the spec's generator example. -/
def aikoName : String := "Aiko"

/-- Concrete surname from the spec's generator example. -/
def smithName : String := "Smith"

/-- Expected generator output of the spec's example. -/
def aikoSmithName : String := "Aiko Smith"

/-- A non-blank name with surrounding whitespace (counterexample input). -/
def spacePaddedA : String := " a "

/-- A sample name-type text. -/
def femTag : String := "fem"

/-- A two-entry sample stream: one explicitly typed entry and one untyped
fallback entry, with a non-entry end event between them. -/
def sampleStream : List XNode :=
  [ ⟨entryTag, [⟨rebTag, aikoKana⟩, ⟨nameTypeTag, femTag⟩]⟩,
    ⟨kebTag, []⟩,
    ⟨entryTag, [⟨rebTag, aikotarouKana⟩]⟩ ]

/-- Concrete download oracle for tests: every mirror fails with error 7. -/
def attemptAllFail : MirrorSource → Except Nat Unit := fun _ => Except.error 7

/-- Concrete download oracle for tests: only the first mirror fails. -/
def attemptFirstFails : MirrorSource → Except Nat Unit :=
  fun src => if src = edrdgHttpsSource then Except.error 0 else Except.ok ()

/-! ### Order lemmas for the sorting relation -/

theorem lexLtChars_irrefl : ∀ l : List Char, lexLtChars l l = false := by
  intro l
  induction l with
  | nil => rfl
  | cons a as ih => simp [lexLtChars, ih]

theorem lexLtChars_trans : ∀ a b c : List Char,
    lexLtChars a b = true → lexLtChars b c = true → lexLtChars a c = true := by
  intro a
  induction a with
  | nil =>
    intro b c hab hbc
    cases b with
    | nil => simp [lexLtChars] at hab
    | cons y ys =>
      cases c with
      | nil => simp [lexLtChars] at hbc
      | cons z zs => rfl
  | cons x xs ih =>
    intro b c hab hbc
    cases b with
    | nil => simp [lexLtChars] at hab
    | cons y ys =>
      cases c with
      | nil => simp [lexLtChars] at hbc
      | cons z zs =>
        simp only [lexLtChars] at hab hbc ⊢
        by_cases hxy : x < y
        · by_cases hyz : y < z
          · simp [lt_trans hxy hyz]
          · by_cases hzy : z < y
            · simp [hyz, hzy] at hbc
            · have hyz2 : y = z := le_antisymm (not_lt.mp hzy) (not_lt.mp hyz)
              subst hyz2
              simp [hxy]
        · by_cases hyx : y < x
          · simp [hxy, hyx] at hab
          · have hxy2 : x = y := le_antisymm (not_lt.mp hyx) (not_lt.mp hxy)
            subst hxy2
            simp only [lt_irrefl, if_false] at hab
            by_cases hxz : x < z
            · simp [hxz]
            · by_cases hzx : z < x
              · simp [hxz, hzx] at hbc
              · have hxz2 : x = z := le_antisymm (not_lt.mp hzx) (not_lt.mp hxz)
                subst hxz2
                simp only [lt_irrefl, if_false] at hbc ⊢
                exact ih ys zs hab hbc

theorem lexLtChars_trichotomy : ∀ a b : List Char,
    lexLtChars a b = true ∨ a = b ∨ lexLtChars b a = true := by
  intro a
  induction a with
  | nil =>
    intro b
    cases b with
    | nil => right; left; rfl
    | cons y ys => left; rfl
  | cons x xs ih =>
    intro b
    cases b with
    | nil => right; right; rfl
    | cons y ys =>
      rcases lt_trichotomy x y with hxy | hxy | hxy
      · left; simp [lexLtChars, hxy]
      · subst hxy
        rcases ih ys with h | h | h
        · left; simp [lexLtChars, h]
        · right; left; rw [h]
        · right; right; simp [lexLtChars, h]
      · right; right; simp [lexLtChars, hxy]

theorem lexLtChars_asymm {a b : List Char} (h : lexLtChars a b = true) :
    lexLtChars b a = false := by
  by_contra hcon
  have h2 : lexLtChars b a = true := by
    cases hba : lexLtChars b a with
    | false => exact absurd hba hcon
    | true => rfl
  have := lexLtChars_trans a b a h h2
  rw [lexLtChars_irrefl] at this
  exact Bool.false_ne_true this

theorem strLe_total_thm : ∀ a b : String, strLe a b = true ∨ strLe b a = true := by
  intro a b
  unfold strLe
  rcases lexLtChars_trichotomy a.data b.data with h | h | h
  · left; simp [lexLtChars_asymm h]
  · left; rw [h, lexLtChars_irrefl]; rfl
  · right; simp [lexLtChars_asymm h]

theorem strLe_trans_thm : ∀ a b c : String,
    strLe a b = true → strLe b c = true → strLe a c = true := by
  intro a b c hab hbc
  unfold strLe at hab hbc ⊢
  simp only [Bool.not_eq_true'] at hab hbc ⊢
  by_contra hcon
  have hca : lexLtChars c.data a.data = true := by
    cases h : lexLtChars c.data a.data with
    | false => exact absurd h hcon
    | true => rfl
  rcases lexLtChars_trichotomy a.data b.data with h | h | h
  · have h2 := lexLtChars_trans c.data a.data b.data hca h
    rw [hbc] at h2
    exact Bool.noConfusion h2
  · rw [← h] at hbc
    rw [hbc] at hca
    exact Bool.noConfusion hca
  · rw [hab] at h
    exact Bool.noConfusion h

theorem strLe_antisymm_thm : ∀ a b : String,
    strLe a b = true → strLe b a = true → a = b := by
  intro a b hab hba
  unfold strLe at hab hba
  simp only [Bool.not_eq_true'] at hab hba
  rcases lexLtChars_trichotomy a.data b.data with h | h | h
  · rw [hba] at h; exact Bool.noConfusion h
  · exact congrArg String.mk h
  · rw [hab] at h; exact Bool.noConfusion h

/-! ### Set-model lemmas -/

theorem mem_addName {s : List String} {x y : String} :
    y ∈ addName s x ↔ y ∈ s ∨ y = x := by
  unfold addName
  split_ifs with hmem
  · constructor
    · exact Or.inl
    · rintro (h | rfl)
      · exact h
      · exact hmem
  · simp

theorem nodup_addName {s : List String} {x : String} (h : s.Nodup) :
    (addName s x).Nodup := by
  unfold addName
  split_ifs with hmem
  · exact h
  · simp [List.nodup_append, h, hmem]

theorem mem_setUnion : ∀ (b a : List String) (x : String),
    x ∈ setUnion a b ↔ x ∈ a ∨ x ∈ b := by
  intro b
  induction b with
  | nil => simp [setUnion]
  | cons y ys ih =>
    intro a x
    show x ∈ setUnion (addName a y) ys ↔ _
    rw [ih, mem_addName]
    simp [List.mem_cons]
    tauto

theorem nodup_setUnion : ∀ (b a : List String), a.Nodup → (setUnion a b).Nodup := by
  intro b
  induction b with
  | nil => intro a h; exact h
  | cons y ys ih =>
    intro a h
    exact ih (addName a y) (nodup_addName h)

theorem setUnion_eq_nil_iff (a b : List String) :
    setUnion a b = [] ↔ a = [] ∧ b = [] := by
  constructor
  · intro h
    constructor
    · rw [List.eq_nil_iff_forall_not_mem]
      intro x hx
      have hm : x ∈ setUnion a b := (mem_setUnion b a x).mpr (Or.inl hx)
      rw [h] at hm
      exact absurd hm (List.not_mem_nil x)
    · rw [List.eq_nil_iff_forall_not_mem]
      intro x hx
      have hm : x ∈ setUnion a b := (mem_setUnion b a x).mpr (Or.inr hx)
      rw [h] at hm
      exact absurd hm (List.not_mem_nil x)
  · rintro ⟨rfl, rfl⟩
    rfl

/-! ### Shortest-reading selection -/

theorem minByLenAux_spec : ∀ (l : List String) (best : String),
    (minByLenAux best l = best ∧ ∀ x ∈ l, best.length ≤ x.length) ∨
    (∃ i : Fin l.length, minByLenAux best l = l.get i ∧ (l.get i).length < best.length ∧
      (∀ x ∈ l, (l.get i).length ≤ x.length) ∧
      ∀ x ∈ l.take i.val, (l.get i).length < x.length) := by
  intro l
  induction l with
  | nil =>
    intro best
    left
    exact ⟨rfl, by simp⟩
  | cons y ys ih =>
    intro best
    by_cases hc : y.length < best.length
    · have h1 : minByLenAux best (y :: ys) = minByLenAux y ys := by
        simp [minByLenAux, hc]
      rcases ih y with ⟨heq, hmin⟩ | ⟨i, heq, hlt, hmin, hbef⟩
      · right
        refine ⟨⟨0, by simp⟩, ?_, ?_, ?_, ?_⟩
        · rw [h1, heq]; rfl
        · exact hc
        · intro x hx
          rcases List.mem_cons.mp hx with rfl | hx2
          · exact le_refl _
          · exact hmin x hx2
        · intro x hx
          simp at hx
      · right
        refine ⟨⟨i.val + 1, by simp [Nat.succ_lt_succ i.isLt]⟩, ?_, ?_, ?_, ?_⟩
        · rw [h1, heq, List.get_cons_succ]
        · rw [List.get_cons_succ]
          exact lt_trans hlt hc
        · rw [List.get_cons_succ]
          intro x hx
          rcases List.mem_cons.mp hx with rfl | hx2
          · exact le_of_lt hlt
          · exact hmin x hx2
        · rw [List.get_cons_succ]
          intro x hx
          rw [List.take_succ_cons] at hx
          rcases List.mem_cons.mp hx with rfl | hx2
          · exact hlt
          · exact hbef x hx2
    · have h1 : minByLenAux best (y :: ys) = minByLenAux best ys := by
        simp [minByLenAux, hc]
      rcases ih best with ⟨heq, hmin⟩ | ⟨i, heq, hlt, hmin, hbef⟩
      · left
        refine ⟨by rw [h1, heq], ?_⟩
        intro x hx
        rcases List.mem_cons.mp hx with rfl | hx2
        · exact Nat.not_lt.mp hc
        · exact hmin x hx2
      · right
        refine ⟨⟨i.val + 1, by simp [Nat.succ_lt_succ i.isLt]⟩, ?_, ?_, ?_, ?_⟩
        · rw [h1, heq, List.get_cons_succ]
        · rw [List.get_cons_succ]
          exact hlt
        · rw [List.get_cons_succ]
          intro x hx
          rcases List.mem_cons.mp hx with rfl | hx2
          · exact le_of_lt (lt_of_lt_of_le hlt (Nat.not_lt.mp hc))
          · exact hmin x hx2
        · rw [List.get_cons_succ]
          intro x hx
          rw [List.take_succ_cons] at hx
          rcases List.mem_cons.mp hx with rfl | hx2
          · exact lt_of_lt_of_le hlt (Nat.not_lt.mp hc)
          · exact hbef x hx2

theorem minByLen_firstShortest {l : List String} {b : String}
    (h : minByLen l = some b) : IsFirstShortest l b := by
  cases l with
  | nil => exact absurd h (by simp [minByLen])
  | cons x xs =>
    have hb : minByLenAux x xs = b := by
      simpa [minByLen] using h
    rcases minByLenAux_spec xs x with ⟨heq, hmin⟩ | ⟨i, heq, hlt, hmin, hbef⟩
    · refine ⟨⟨0, by simp⟩, ?_, ?_, ?_⟩
      · rw [← hb, heq]; rfl
      · intro y hy
        rw [← hb, heq]
        rcases List.mem_cons.mp hy with rfl | hy2
        · exact le_refl _
        · exact hmin y hy2
      · intro y hy
        simp at hy
    · refine ⟨⟨i.val + 1, by simp [Nat.succ_lt_succ i.isLt]⟩, ?_, ?_, ?_⟩
      · rw [← hb, heq, List.get_cons_succ]
      · intro y hy
        rw [← hb, heq]
        rcases List.mem_cons.mp hy with rfl | hy2
        · exact le_of_lt hlt
        · exact hmin y hy2
      · intro y hy
        rw [← hb, heq]
        have hy2 : y ∈ List.take (i.val + 1) (x :: xs) := hy
        rw [List.take_succ_cons] at hy2
        rcases List.mem_cons.mp hy2 with rfl | hy3
        · exact hlt
        · exact hbef y hy3

theorem minByLen_isSome {l : List String} (h : l ≠ []) : ∃ b, minByLen l = some b := by
  cases l with
  | nil => exact absurd rfl h
  | cons x xs => exact ⟨minByLenAux x xs, rfl⟩

/-- C1: reading selection in `parse_japanese_names`.  With at least one kana
reading the chosen base is the first-encountered shortest member of the
all-kana subset, falling back to the full kana list when that subset is
empty; with no kana readings but at least one kanji reading it is the
first-encountered shortest kanji reading; and an entry with kana readings
[あいこ, あいこたろう] selects あいこ. -/
theorem c1_reading_selection :
    (∀ kana_readings kanji_readings : List String, kana_readings ≠ [] →
      ∃ b, chooseBase kana_readings kanji_readings = some b ∧
        IsFirstShortest
          (if (kana_readings.filter isKanaOnly).isEmpty then kana_readings
           else kana_readings.filter isKanaOnly) b) ∧
    (∀ kana_readings kanji_readings : List String, kana_readings = [] → kanji_readings ≠ [] →
      ∃ b, chooseBase kana_readings kanji_readings = some b ∧
        IsFirstShortest kanji_readings b) ∧
    chooseBase [aikoKana, aikotarouKana] [] = some aikoKana := by
  refine ⟨?_, ?_, by decide⟩
  · intro kana kanji hne
    have hk : kana.isEmpty = false := by
      cases kana with
      | nil => exact absurd rfl hne
      | cons x xs => rfl
    have hpool :
        (if (kana.filter isKanaOnly).isEmpty then kana else kana.filter isKanaOnly) ≠ [] := by
      split_ifs with hf
      · exact hne
      · intro hcon
        rw [hcon] at hf
        simp at hf
    obtain ⟨b, hb⟩ := minByLen_isSome hpool
    refine ⟨b, ?_, minByLen_firstShortest hb⟩
    simp only [chooseBase, hk, Bool.not_false, if_true]
    exact hb
  · intro kana kanji hkana hne
    subst hkana
    obtain ⟨b, hb⟩ := minByLen_isSome hne
    refine ⟨b, ?_, minByLen_firstShortest hb⟩
    simp only [chooseBase, List.isEmpty_nil, Bool.not_true, Bool.false_eq_true, if_false]
    exact hb

/-- Witness for C1: both branches of the theorem applied at concrete inputs. -/
theorem c1_reading_selection_witness :
    (([aikoKana, aikotarouKana] : List String) ≠ [] ∧
      ∃ b, chooseBase [aikoKana, aikotarouKana] [] = some b ∧
        IsFirstShortest
          (if (([aikoKana, aikotarouKana] : List String).filter isKanaOnly).isEmpty
           then [aikoKana, aikotarouKana]
           else ([aikoKana, aikotarouKana] : List String).filter isKanaOnly) b) ∧
    (([nakaKanji] : List String) ≠ [] ∧
      ∃ b, chooseBase [] [nakaKanji] = some b ∧ IsFirstShortest [nakaKanji] b) :=
  ⟨⟨by decide, c1_reading_selection.1 [aikoKana, aikotarouKana] [] (by decide)⟩,
   ⟨by decide, c1_reading_selection.2.1 [] [nakaKanji] rfl (by decide)⟩⟩

/-- C2: candidate validation accepts a romanised string exactly when its
length is between 2 and 14 inclusive and it fully matches one leading
alphabetic character followed by letters, apostrophes, hyphens or spaces;
the boundary cases of the spec hold; and a failed validation only skips the
entry, leaving the parse state unchanged (a silent skip, not an error). -/
theorem c2_validation :
    (∀ s : String,
      isValidRomaji s = true ↔
        (2 ≤ s.length ∧ s.length ≤ 14 ∧
          ∃ c cs, s.data = c :: cs ∧ isAsciiLetter c = true ∧
            ∀ x ∈ cs, nameTailChar x = true)) ∧
    isValidRomaji (String.mk ['A']) = false ∧
    isValidRomaji (String.mk ['A', 'i']) = true ∧
    isValidRomaji (String.mk ['A', 'b', 'c', 'd', 'e', 'f', 'g', 'h', 'i', 'j', 'k', 'l', 'm', 'n']) = true ∧
    isValidRomaji (String.mk ['A', 'b', 'c', 'd', 'e', 'f', 'g', 'h', 'i', 'j', 'k', 'l', 'm', 'n', 'o']) = false ∧
    isValidRomaji (String.mk ['O', '\x27', 'B', 'r', 'i', 'e', 'n']) = true ∧
    isValidRomaji (String.mk ['1', 'b', 'c']) = false ∧
    isValidRomaji (String.mk ['-', 'b', 'c']) = false ∧
    (∀ (conv : String → String) (st : List String × List String) (node : XNode) (base : String),
      chooseBase (kanaReadings node.elems) (kanjiReadings node.elems) = some base →
      isValidRomaji (to_romaji conv base) = false →
      stepEntry conv st node = st) := by
  refine ⟨?_, by decide, by decide, by decide, by decide, by decide, by decide, by decide, ?_⟩
  · intro s
    rcases s with ⟨data⟩
    cases data with
    | nil => simp [isValidRomaji, matchesNamePattern]
    | cons c cs =>
      simp only [isValidRomaji, matchesNamePattern, Bool.and_eq_true, decide_eq_true_eq,
        List.all_eq_true]
      constructor
      · rintro ⟨⟨h1, h2⟩, h3, h4⟩
        exact ⟨h1, h2, c, cs, rfl, h3, h4⟩
      · rintro ⟨h1, h2, c2, cs2, heq, h3, h4⟩
        cases heq
        exact ⟨⟨h1, h2⟩, h3, h4⟩
  · intro conv st node base hcb hval
    simp only [stepEntry, hcb, hval, Bool.not_false, if_true]
    split_ifs <;> rfl

/-- Witness for C2: the skip conjunct applied at a concrete entry whose
romanised form fails validation. -/
theorem c2_validation_witness :
    chooseBase (kanaReadings [⟨rebTag, aikoKana⟩]) (kanjiReadings [⟨rebTag, aikoKana⟩])
        = some aikoKana ∧
    isValidRomaji (to_romaji (fun _ => emptyStr) aikoKana) = false ∧
    stepEntry (fun _ => emptyStr) ([], []) ⟨entryTag, [⟨rebTag, aikoKana⟩]⟩ = ([], []) :=
  ⟨by decide, by decide,
    c2_validation.2.2.2.2.2.2.2.2 (fun _ => emptyStr) ([], [])
      ⟨entryTag, [⟨rebTag, aikoKana⟩]⟩ aikoKana (by decide) (by decide)⟩

/-- Helper: `chooseBase` yields nothing exactly when both reading lists are
empty. -/
theorem chooseBase_eq_none_iff (kana kanji : List String) :
    chooseBase kana kanji = none ↔ kana = [] ∧ kanji = [] := by
  constructor
  · intro h
    cases kana with
    | nil =>
      cases kanji with
      | nil => exact ⟨rfl, rfl⟩
      | cons y ys =>
        simp only [chooseBase, List.isEmpty_nil, Bool.not_true, Bool.false_eq_true,
          if_false, minByLen] at h
        exact Option.noConfusion h
    | cons x xs =>
      exfalso
      have hpool :
          (if ((x :: xs).filter isKanaOnly).isEmpty then x :: xs
           else (x :: xs).filter isKanaOnly) ≠ [] := by
        split_ifs with hf
        · simp
        · intro hcon
          rw [hcon] at hf
          simp at hf
      obtain ⟨b, hb⟩ := minByLen_isSome hpool
      simp only [chooseBase, List.isEmpty_cons, Bool.not_false, if_true] at h
      rw [hb] at h
      exact Option.noConfusion h
  · rintro ⟨rfl, rfl⟩
    rfl

/-- C9: the minimum-by-length operation is never applied to an empty
sequence: `chooseBase` fails exactly when both reading lists are empty, the
pool used in the kana branch is non-empty whenever kana readings exist, and
for any entry passing the skip guard of the parse loop selection succeeds. -/
theorem c9_min_nonempty :
    (∀ kana_readings kanji_readings : List String,
      chooseBase kana_readings kanji_readings = none ↔
        kana_readings = [] ∧ kanji_readings = []) ∧
    (∀ kana_readings : List String, kana_readings ≠ [] →
      (if (kana_readings.filter isKanaOnly).isEmpty then kana_readings
       else kana_readings.filter isKanaOnly) ≠ []) ∧
    (∀ node : XNode, ¬(kanaReadings node.elems = [] ∧ kanjiReadings node.elems = []) →
      ∃ b, chooseBase (kanaReadings node.elems) (kanjiReadings node.elems) = some b) := by
  refine ⟨chooseBase_eq_none_iff, ?_, ?_⟩
  · intro kana hne
    split_ifs with hf
    · exact hne
    · intro hcon
      rw [hcon] at hf
      simp at hf
  · intro node hne
    cases h : chooseBase (kanaReadings node.elems) (kanjiReadings node.elems) with
    | none => exact absurd ((chooseBase_eq_none_iff _ _).mp h) hne
    | some b => exact ⟨b, rfl⟩

/-- Witness for C9: both hypothesis-bearing conjuncts applied at a concrete
entry. -/
theorem c9_min_nonempty_witness :
    (([aikoKana] : List String) ≠ [] ∧
      (if (([aikoKana] : List String).filter isKanaOnly).isEmpty then [aikoKana]
       else ([aikoKana] : List String).filter isKanaOnly) ≠ []) ∧
    (¬(kanaReadings [⟨rebTag, aikoKana⟩] = [] ∧ kanjiReadings [⟨rebTag, aikoKana⟩] = []) ∧
      ∃ b, chooseBase (kanaReadings [⟨rebTag, aikoKana⟩])
        (kanjiReadings [⟨rebTag, aikoKana⟩]) = some b) :=
  ⟨⟨by decide, c9_min_nonempty.2.1 [aikoKana] (by decide)⟩,
   ⟨by decide, c9_min_nonempty.2.2 ⟨entryTag, [⟨rebTag, aikoKana⟩]⟩ (by decide)⟩⟩

/-- C8: for non-empty inputs `generate_name` returns one element of the
first list, a single separating space, and one element of the second list;
on the singleton lists [Aiko] and [Smith] it always returns Aiko Smith. -/
theorem c8_generate_name :
    (∀ (jp_names west_surnames : List String) (r1 r2 : Nat),
      jp_names ≠ [] → west_surnames ≠ [] →
      ∃ a b, a ∈ jp_names ∧ b ∈ west_surnames ∧
        generate_name jp_names west_surnames r1 r2 = some (a ++ spaceStr ++ b)) ∧
    (∀ r1 r2 : Nat, generate_name [aikoName] [smithName] r1 r2 = some aikoSmithName) := by
  constructor
  · intro jp west r1 r2 hjp hwest
    cases jp with
    | nil => exact absurd rfl hjp
    | cons x xs =>
      cases west with
      | nil => exact absurd rfl hwest
      | cons y ys =>
        exact ⟨(x :: xs).get ⟨r1 % (x :: xs).length, Nat.mod_lt _ (Nat.succ_pos _)⟩,
               (y :: ys).get ⟨r2 % (y :: ys).length, Nat.mod_lt _ (Nat.succ_pos _)⟩,
               List.get_mem _ _ _, List.get_mem _ _ _, rfl⟩
  · intro r1 r2
    simp only [generate_name, randomChoice, List.length_singleton, Nat.mod_one]
    rfl

/-- Witness for C8: the general conjunct applied at the singleton lists. -/
theorem c8_generate_name_witness :
    ([aikoName] : List String) ≠ [] ∧ ([smithName] : List String) ≠ [] ∧
      ∃ a b, a ∈ [aikoName] ∧ b ∈ [smithName] ∧
        generate_name [aikoName] [smithName] 3 5 = some (a ++ spaceStr ++ b) :=
  ⟨by decide, by decide, c8_generate_name.1 [aikoName] [smithName] 3 5 (by decide) (by decide)⟩

/-- Helper: a prefix of mirrors that all fail is skipped, and the first
succeeding mirror stops the chain. -/
theorem tryMirrors_first_success {E : Type} (attempt : MirrorSource → Except E Unit) :
    ∀ (pre : List MirrorSource) (s : MirrorSource) (post : List MirrorSource) (last : Option E),
      (∀ t ∈ pre, ∃ e, attempt t = Except.error e) → attempt s = Except.ok () →
      tryMirrors attempt (pre ++ s :: post) last = Except.ok s := by
  intro pre
  induction pre with
  | nil =>
    intro s post last _ hs
    rw [List.nil_append]
    simp only [tryMirrors, hs]
  | cons t ts ih =>
    intro s post last hpre hs
    obtain ⟨e, he⟩ := hpre t (List.mem_cons_self t ts)
    rw [List.cons_append]
    simp only [tryMirrors, he]
    exact ih s post (some e) (fun u hu => hpre u (List.mem_cons_of_mem t hu)) hs

/-- C5: dictionary acquisition tries the four mirrors in their fixed listed
order; the first mirror whose fetch succeeds stops the chain (the sources
after it are irrelevant to the result); a failure of the first mirror makes
the chain continue with the second; and when all four mirrors fail a single
aggregated error is raised carrying the last underlying failure. -/
theorem c5_mirror_chain :
    jmnedictSources.length = 4 ∧
    (∀ (E : Type) (attempt : MirrorSource → Except E Unit) (pre : List MirrorSource)
        (s : MirrorSource) (post : List MirrorSource) (last : Option E),
      (∀ t ∈ pre, ∃ e, attempt t = Except.error e) → attempt s = Except.ok () →
      tryMirrors attempt (pre ++ s :: post) last = Except.ok s ∧
      tryMirrors attempt (pre ++ s :: post) last = tryMirrors attempt (pre ++ [s]) last) ∧
    (∀ (E : Type) (attempt : MirrorSource → Except E Unit) (e : E),
      attempt edrdgHttpsSource = Except.error e →
      downloadJmnedict attempt
        = tryMirrors attempt [usfSource, edrdgHttpSource, githubSource] (some e)) ∧
    (∀ (E : Type) (attempt : MirrorSource → Except E Unit) (e1 e2 e3 e4 : E),
      attempt edrdgHttpsSource = Except.error e1 →
      attempt usfSource = Except.error e2 →
      attempt edrdgHttpSource = Except.error e3 →
      attempt githubSource = Except.error e4 →
      downloadJmnedict attempt = Except.error (allFailedMsg, some e4)) := by
  refine ⟨rfl, ?_, ?_, ?_⟩
  · intro E attempt pre s post last hpre hs
    constructor
    · exact tryMirrors_first_success attempt pre s post last hpre hs
    · rw [tryMirrors_first_success attempt pre s post last hpre hs,
        tryMirrors_first_success attempt pre s [] last hpre hs]
  · intro E attempt e he
    simp only [downloadJmnedict, jmnedictSources, tryMirrors, he]
  · intro E attempt e1 e2 e3 e4 h1 h2 h3 h4
    simp only [downloadJmnedict, jmnedictSources, tryMirrors, h1, h2, h3, h4]

/-- Witness for C5: the chain evaluated under two concrete oracles, one
where only the first mirror fails and one where all four fail. -/
theorem c5_mirror_chain_witness :
    tryMirrors attemptFirstFails
        ([edrdgHttpsSource] ++ usfSource :: [edrdgHttpSource, githubSource]) none
      = Except.ok usfSource ∧
    downloadJmnedict attemptFirstFails
      = tryMirrors attemptFirstFails [usfSource, edrdgHttpSource, githubSource] (some 0) ∧
    downloadJmnedict attemptAllFail = Except.error (allFailedMsg, some 7) :=
  ⟨(c5_mirror_chain.2.1 Nat attemptFirstFails [edrdgHttpsSource] usfSource
      [edrdgHttpSource, githubSource] none
      (fun t ht => ⟨0, by rw [List.mem_singleton] at ht; subst ht; rfl⟩) rfl).1,
   c5_mirror_chain.2.2.1 Nat attemptFirstFails 0 rfl,
   c5_mirror_chain.2.2.2 Nat attemptAllFail 7 7 7 7 rfl rfl rfl rfl⟩

/-- Helper: one parse step preserves distinctness of both sets and keeps the
union of the two classified sets in lockstep with the classification-free
single set. -/
theorem stepEntry_inv (conv : String → String) (node : XNode)
    (st : List String × List String) (a : List String)
    (h1 : st.1.Nodup) (h2 : st.2.Nodup) (h3 : a.Nodup)
    (hmem : ∀ x, (x ∈ st.1 ∨ x ∈ st.2) ↔ x ∈ a) :
    (stepEntry conv st node).1.Nodup ∧ (stepEntry conv st node).2.Nodup ∧
    (stepEntryAll conv a node).Nodup ∧
    ∀ x, (x ∈ (stepEntry conv st node).1 ∨ x ∈ (stepEntry conv st node).2) ↔
      x ∈ stepEntryAll conv a node := by
  by_cases htag : (!tagEndsWith node.tag entryTag) = true
  · simp only [stepEntry, stepEntryAll, if_pos htag]
    exact ⟨h1, h2, h3, hmem⟩
  · by_cases hemp :
        ((kanaReadings node.elems).isEmpty && (kanjiReadings node.elems).isEmpty) = true
    · simp only [stepEntry, stepEntryAll, if_neg htag, if_pos hemp]
      exact ⟨h1, h2, h3, hmem⟩
    · cases hcb : chooseBase (kanaReadings node.elems) (kanjiReadings node.elems) with
      | none =>
        simp only [stepEntry, stepEntryAll, if_neg htag, if_neg hemp, hcb]
        exact ⟨h1, h2, h3, hmem⟩
      | some base =>
        by_cases hval : (!isValidRomaji (to_romaji conv base)) = true
        · simp only [stepEntry, stepEntryAll, if_neg htag, if_neg hemp, hcb, if_pos hval]
          exact ⟨h1, h2, h3, hmem⟩
        · by_cases hhas : hasNameType node.elems = true
          · simp only [stepEntry, stepEntryAll, if_neg htag, if_neg hemp, hcb,
              if_neg hval, if_pos hhas]
            refine ⟨nodup_addName h1, h2, nodup_addName h3, ?_⟩
            intro x
            rw [mem_addName, mem_addName, ← hmem x]
            tauto
          · simp only [stepEntry, stepEntryAll, if_neg htag, if_neg hemp, hcb,
              if_neg hval, if_neg hhas]
            refine ⟨h1, nodup_addName h2, nodup_addName h3, ?_⟩
            intro x
            rw [mem_addName, mem_addName, ← hmem x]
            tauto

/-- Helper: the invariant of `stepEntry_inv` carried over the whole stream
fold. -/
theorem collect_inv (conv : String → String) : ∀ (stream : List XNode)
    (st : List String × List String) (a : List String),
    st.1.Nodup → st.2.Nodup → a.Nodup → (∀ x, (x ∈ st.1 ∨ x ∈ st.2) ↔ x ∈ a) →
    (stream.foldl (stepEntry conv) st).1.Nodup ∧
    (stream.foldl (stepEntry conv) st).2.Nodup ∧
    (stream.foldl (stepEntryAll conv) a).Nodup ∧
    ∀ x, (x ∈ (stream.foldl (stepEntry conv) st).1 ∨
        x ∈ (stream.foldl (stepEntry conv) st).2) ↔
      x ∈ stream.foldl (stepEntryAll conv) a := by
  intro stream
  induction stream with
  | nil =>
    intro st a h1 h2 h3 h4
    exact ⟨h1, h2, h3, h4⟩
  | cons node rest ih =>
    intro st a h1 h2 h3 h4
    obtain ⟨g1, g2, g3, g4⟩ := stepEntry_inv conv node st a h1 h2 h3 h4
    exact ih (stepEntry conv st node) (stepEntryAll conv a node) g1 g2 g3 g4

/-- C3: a successful parse returns the lexicographically sorted,
duplicate-free union of the given-name set and the fallback-candidate set,
and the same list is produced by the classification-free variant, so the
`has_name_type` classification has no observable effect on the result. -/
theorem c3_sorted_union (conv : String → String) (stream : List XNode) (l : List String)
    (h : parse_japanese_names conv stream = Except.ok l) :
    l = pySorted (setUnion (collectNames conv stream).1 (collectNames conv stream).2) ∧
    List.Sorted (fun a b => strLe a b = true) l ∧
    l.Nodup ∧
    (∀ x, x ∈ l ↔ x ∈ (collectNames conv stream).1 ∨ x ∈ (collectNames conv stream).2) ∧
    l = pySorted (collectAll conv stream) := by
  haveI htot : IsTotal String (fun a b => strLe a b = true) := ⟨strLe_total_thm⟩
  haveI htrans : IsTrans String (fun a b => strLe a b = true) := ⟨strLe_trans_thm⟩
  haveI hanti : IsAntisymm String (fun a b => strLe a b = true) := ⟨strLe_antisymm_thm⟩
  have hinv := collect_inv conv stream ([], []) []
    List.nodup_nil List.nodup_nil List.nodup_nil (by simp)
  have hcg : collectNames conv stream = stream.foldl (stepEntry conv) ([], []) := rfl
  have hca : collectAll conv stream = stream.foldl (stepEntryAll conv) [] := rfl
  rw [← hcg, ← hca] at hinv
  obtain ⟨hg, hf, ha, hmem⟩ := hinv
  simp only [parse_japanese_names] at h
  split_ifs at h with hemp
  have hl : l
      = pySorted (setUnion (collectNames conv stream).1 (collectNames conv stream).2) := by
    injection h with h2
    exact h2.symm
  have hcomb : (setUnion (collectNames conv stream).1 (collectNames conv stream).2).Nodup :=
    nodup_setUnion _ _ hg
  have hperm :
      (pySorted (setUnion (collectNames conv stream).1 (collectNames conv stream).2)).Perm
        (setUnion (collectNames conv stream).1 (collectNames conv stream).2) :=
    List.perm_insertionSort _ _
  refine ⟨hl, ?_, ?_, ?_, ?_⟩
  · rw [hl]
    exact List.sorted_insertionSort _ _
  · rw [hl]
    exact hperm.nodup_iff.mpr hcomb
  · intro x
    rw [hl, hperm.mem_iff, mem_setUnion]
  · rw [hl]
    refine List.eq_of_perm_of_sorted ?_ (List.sorted_insertionSort _ _)
      (List.sorted_insertionSort _ _)
    refine hperm.trans (List.Perm.trans ?_ (List.perm_insertionSort _ _).symm)
    refine (List.perm_ext_iff_of_nodup hcomb ha).mpr ?_
    intro x
    rw [mem_setUnion]
    exact hmem x

/-- Witness for C3: the theorem applied to a concrete converter and stream
whose two entries collapse to the single name Aiko. -/
theorem c3_sorted_union_witness :
    parse_japanese_names (fun _ => aikoName) sampleStream = Except.ok [aikoName] ∧
    ([aikoName] : List String)
        = pySorted (setUnion (collectNames (fun _ => aikoName) sampleStream).1
            (collectNames (fun _ => aikoName) sampleStream).2) ∧
    List.Sorted (fun a b => strLe a b = true) [aikoName] ∧
    ([aikoName] : List String).Nodup ∧
    [aikoName] = pySorted (collectAll (fun _ => aikoName) sampleStream) := by
  have h : parse_japanese_names (fun _ => aikoName) sampleStream = Except.ok [aikoName] := by
    rfl
  obtain ⟨h1, h2, h3, _h4, h5⟩ := c3_sorted_union (fun _ => aikoName) sampleStream [aikoName] h
  exact ⟨h, h1, h2, h3, h5⟩

/-- C4: the parse fails with the no-data error exactly when both the
given-name set and the fallback-candidate set are empty after the whole
stream; the only error it produces is the no-data message; and entries with
no readings, or whose romanised form fails validation, leave the state
unchanged (a silent skip that never produces an error). -/
theorem c4_no_data_error (conv : String → String) (stream : List XNode) :
    ((∃ msg, parse_japanese_names conv stream = Except.error msg) ↔
      (collectNames conv stream).1 = [] ∧ (collectNames conv stream).2 = []) ∧
    (∀ msg, parse_japanese_names conv stream = Except.error msg → msg = noDataMsg) ∧
    (∀ (st : List String × List String) (node : XNode),
      kanaReadings node.elems = [] → kanjiReadings node.elems = [] →
      stepEntry conv st node = st) ∧
    (∀ (st : List String × List String) (node : XNode) (base : String),
      chooseBase (kanaReadings node.elems) (kanjiReadings node.elems) = some base →
      isValidRomaji (to_romaji conv base) = false →
      stepEntry conv st node = st) := by
  refine ⟨⟨?_, ?_⟩, ?_, ?_, ?_⟩
  · rintro ⟨msg, hmsg⟩
    simp only [parse_japanese_names] at hmsg
    split_ifs at hmsg with hemp
    exact (setUnion_eq_nil_iff _ _).mp (List.isEmpty_iff.mp hemp)
  · rintro ⟨hg, hf⟩
    refine ⟨noDataMsg, ?_⟩
    simp only [parse_japanese_names, hg, hf]
    rfl
  · intro msg hmsg
    simp only [parse_japanese_names] at hmsg
    split_ifs at hmsg with hemp
    injection hmsg with h2
    exact h2.symm
  · intro st node hkana hkanji
    by_cases htag : (!tagEndsWith node.tag entryTag) = true
    · simp only [stepEntry, if_pos htag]
    · simp only [stepEntry, if_neg htag, hkana, hkanji, List.isEmpty_nil, Bool.and_self,
        if_true]
  · intro st node base hcb hval
    simp only [stepEntry, hcb, hval, Bool.not_false, if_true]
    split_ifs <;> rfl

/-- Witness for C4: a converter that romanises nothing validly makes the
parse of the sample stream fail with the no-data error, and the skip
conjuncts applied at concrete entries. -/
theorem c4_no_data_error_witness :
    parse_japanese_names (fun _ => emptyStr) sampleStream = Except.error noDataMsg ∧
    (collectNames (fun _ => emptyStr) sampleStream).1 = [] ∧
    (collectNames (fun _ => emptyStr) sampleStream).2 = [] ∧
    stepEntry (fun _ => emptyStr) ([], []) ⟨entryTag, []⟩ = ([], []) := by
  have hmain := c4_no_data_error (fun _ => emptyStr) sampleStream
  obtain ⟨msg, hmsg⟩ := hmain.1.mpr ⟨rfl, rfl⟩
  have heq := hmain.2.1 msg hmsg
  rw [heq] at hmsg
  exact ⟨hmsg, rfl, rfl, hmain.2.2.1 ([], []) ⟨entryTag, []⟩ rfl rfl⟩

/-- Helper: ASCII uppercasing does not change whether a character is
whitespace. -/
theorem isPyWs_pyUpperChar (c : Char) : isPyWs (pyUpperChar c) = isPyWs c := by
  unfold pyUpperChar
  split_ifs with h
  · simp only [Bool.and_eq_true, decide_eq_true_eq] at h
    obtain ⟨h1, h2⟩ := h
    rw [Char.le_def] at h1 h2
    have ha : (97 : Nat) ≤ c.toNat := h1
    have hb : c.toNat ≤ 122 := h2
    have hcws : isPyWs c = false := by
      simp only [isPyWs, Bool.or_eq_false_iff, decide_eq_false_iff_not]
      omega
    rw [hcws]
    obtain ⟨n, hn, h65, h90⟩ :
        ∃ n, c.toNat - 32 = n ∧ 65 ≤ n ∧ n ≤ 90 := ⟨c.toNat - 32, rfl, by omega, by omega⟩
    rw [hn]
    interval_cases n <;> decide
  · rfl

/-- Helper: ASCII lowercasing does not change whether a character is
whitespace. -/
theorem isPyWs_pyLowerChar (c : Char) : isPyWs (pyLowerChar c) = isPyWs c := by
  unfold pyLowerChar
  split_ifs with h
  · simp only [Bool.and_eq_true, decide_eq_true_eq] at h
    obtain ⟨h1, h2⟩ := h
    rw [Char.le_def] at h1 h2
    have ha : (65 : Nat) ≤ c.toNat := h1
    have hb : c.toNat ≤ 90 := h2
    have hcws : isPyWs c = false := by
      simp only [isPyWs, Bool.or_eq_false_iff, decide_eq_false_iff_not]
      omega
    rw [hcws]
    obtain ⟨n, hn, h97, h122⟩ :
        ∃ n, c.toNat + 32 = n ∧ 97 ≤ n ∧ n ≤ 122 := ⟨c.toNat + 32, rfl, by omega, by omega⟩
    rw [hn]
    interval_cases n <;> decide
  · rfl

/-- Helper: title-casing preserves the whitespace profile of the string. -/
theorem map_isPyWs_pyTitleChars : ∀ (b : Bool) (l : List Char),
    (pyTitleChars b l).map isPyWs = l.map isPyWs := by
  intro b l
  induction l generalizing b with
  | nil => rfl
  | cons c cs ih =>
    simp only [pyTitleChars, List.map_cons, ih]
    congr 1
    by_cases hc : isAsciiLetter c = true
    · simp only [hc, if_true]
      by_cases hb : b = true
      · simp [hb, isPyWs_pyLowerChar]
      · simp only [Bool.not_eq_true] at hb
        simp [hb, isPyWs_pyUpperChar]
    · simp [hc]

/-- Helper: the head surviving a whitespace `dropWhile` is not whitespace. -/
theorem head?_dropWhile_isPyWs : ∀ (l : List Char) (h : Char),
    (l.dropWhile isPyWs).head? = some h → isPyWs h = false := by
  intro l
  induction l with
  | nil =>
    intro h hh
    simp [List.dropWhile] at hh
  | cons c cs ih =>
    intro h hh
    rw [List.dropWhile_cons] at hh
    by_cases hc : isPyWs c = true
    · rw [if_pos hc] at hh
      exact ih h hh
    · rw [if_neg hc] at hh
      injection hh with h2
      subst h2
      simp only [Bool.not_eq_true] at hc
      exact hc

/-- Helper: `dropWhile` is the identity when the head does not satisfy the
predicate. -/
theorem dropWhile_eq_self_of_head (l : List Char)
    (h : ∀ x, l.head? = some x → isPyWs x = false) : l.dropWhile isPyWs = l := by
  cases l with
  | nil => rfl
  | cons c cs =>
    rw [List.dropWhile_cons, h c rfl]
    simp

/-- Helper: prefixes agree on the head when non-empty. -/
theorem head?_eq_of_listPre {l1 l2 : List Char} (h : l1 <+: l2) (hne : l1 ≠ []) :
    l1.head? = l2.head? := by
  obtain ⟨t, rfl⟩ := h
  cases l1 with
  | nil => exact absurd rfl hne
  | cons c cs => rfl

/-- Helper: a stripped character list does not start with whitespace. -/
theorem head?_stripChars (d : List Char) (h : Char)
    (hh : (stripChars d).head? = some h) : isPyWs h = false := by
  unfold stripChars at hh
  have hpre : ((d.dropWhile isPyWs).reverse.dropWhile isPyWs).reverse <+: d.dropWhile isPyWs := by
    have hsuf : (d.dropWhile isPyWs).reverse.dropWhile isPyWs <:+ (d.dropWhile isPyWs).reverse :=
      List.dropWhile_suffix _
    have h2 := List.reverse_prefix.mpr hsuf
    rwa [List.reverse_reverse] at h2
  have hne : ((d.dropWhile isPyWs).reverse.dropWhile isPyWs).reverse ≠ [] := by
    intro hcon
    rw [hcon] at hh
    exact Option.noConfusion hh
  rw [head?_eq_of_listPre hpre hne] at hh
  exact head?_dropWhile_isPyWs d h hh

/-- Helper: a stripped character list does not end with whitespace. -/
theorem getLast?_stripChars (d : List Char) (h : Char)
    (hh : (stripChars d).getLast? = some h) : isPyWs h = false := by
  unfold stripChars at hh
  rw [List.getLast?_reverse] at hh
  exact head?_dropWhile_isPyWs (d.dropWhile isPyWs).reverse h hh

/-- Helper: stripping is the identity on a list with no whitespace at either
end. -/
theorem stripChars_eq_self (l : List Char)
    (hlead : ∀ x, l.head? = some x → isPyWs x = false)
    (htrail : ∀ x, l.getLast? = some x → isPyWs x = false) : stripChars l = l := by
  unfold stripChars
  rw [dropWhile_eq_self_of_head l hlead]
  rw [dropWhile_eq_self_of_head l.reverse
    (fun x hx => htrail x (by rwa [List.head?_reverse] at hx))]
  rw [List.reverse_reverse]

/-- Helper: stripping, then title-casing, leaves nothing more to strip. -/
theorem stripChars_pyTitleChars_stripChars (d : List Char) :
    stripChars (pyTitleChars false (stripChars d)) = pyTitleChars false (stripChars d) := by
  have hmap : (pyTitleChars false (stripChars d)).map isPyWs = (stripChars d).map isPyWs :=
    map_isPyWs_pyTitleChars false (stripChars d)
  have hlead : ∀ x, (pyTitleChars false (stripChars d)).head? = some x → isPyWs x = false := by
    intro x hx
    have h1 : ((pyTitleChars false (stripChars d)).map isPyWs).head? = some (isPyWs x) := by
      rw [List.head?_map, hx]
      rfl
    rw [hmap, List.head?_map] at h1
    cases hu2 : (stripChars d).head? with
    | none =>
      rw [hu2] at h1
      exact Option.noConfusion h1
    | some y =>
      rw [hu2] at h1
      injection h1 with h2
      rw [← h2]
      exact head?_stripChars d y hu2
  have htrail : ∀ x, (pyTitleChars false (stripChars d)).getLast? = some x →
      isPyWs x = false := by
    intro x hx
    have h1 : ((pyTitleChars false (stripChars d)).map isPyWs).getLast? = some (isPyWs x) := by
      rw [List.getLast?_map, hx]
      rfl
    rw [hmap, List.getLast?_map] at h1
    cases hu2 : (stripChars d).getLast? with
    | none =>
      rw [hu2] at h1
      exact Option.noConfusion h1
    | some y =>
      rw [hu2] at h1
      injection h1 with h2
      rw [← h2]
      exact getLast?_stripChars d y hu2
  exact stripChars_eq_self _ hlead htrail

/-- Helper: every `to_romaji` output carries no surrounding whitespace. -/
theorem pyStrip_to_romaji (conv : String → String) (t : String) :
    pyStrip (to_romaji conv t) = to_romaji conv t := by
  unfold to_romaji pyTitle pyStrip
  exact congrArg String.mk (stripChars_pyTitleChars_stripChars (conv t).data)

/-- Helper: one parse step only ever adds stripped strings to either set. -/
theorem stepEntry_stripped (conv : String → String) (st : List String × List String)
    (node : XNode)
    (h1 : ∀ x ∈ st.1, pyStrip x = x) (h2 : ∀ x ∈ st.2, pyStrip x = x) :
    (∀ x ∈ (stepEntry conv st node).1, pyStrip x = x) ∧
    (∀ x ∈ (stepEntry conv st node).2, pyStrip x = x) := by
  by_cases htag : (!tagEndsWith node.tag entryTag) = true
  · simp only [stepEntry, if_pos htag]
    exact ⟨h1, h2⟩
  · by_cases hemp :
        ((kanaReadings node.elems).isEmpty && (kanjiReadings node.elems).isEmpty) = true
    · simp only [stepEntry, if_neg htag, if_pos hemp]
      exact ⟨h1, h2⟩
    · cases hcb : chooseBase (kanaReadings node.elems) (kanjiReadings node.elems) with
      | none =>
        simp only [stepEntry, if_neg htag, if_neg hemp, hcb]
        exact ⟨h1, h2⟩
      | some base =>
        by_cases hval : (!isValidRomaji (to_romaji conv base)) = true
        · simp only [stepEntry, if_neg htag, if_neg hemp, hcb, if_pos hval]
          exact ⟨h1, h2⟩
        · by_cases hhas : hasNameType node.elems = true
          · simp only [stepEntry, if_neg htag, if_neg hemp, hcb, if_neg hval, if_pos hhas]
            refine ⟨?_, h2⟩
            intro x hx
            rcases mem_addName.mp hx with hx2 | rfl
            · exact h1 x hx2
            · exact pyStrip_to_romaji conv base
          · simp only [stepEntry, if_neg htag, if_neg hemp, hcb, if_neg hval, if_neg hhas]
            refine ⟨h1, ?_⟩
            intro x hx
            rcases mem_addName.mp hx with hx2 | rfl
            · exact h2 x hx2
            · exact pyStrip_to_romaji conv base

/-- Helper: the stripped-strings invariant carried over the whole stream. -/
theorem collect_stripped (conv : String → String) : ∀ (stream : List XNode)
    (st : List String × List String),
    (∀ x ∈ st.1, pyStrip x = x) → (∀ x ∈ st.2, pyStrip x = x) →
    (∀ x ∈ (stream.foldl (stepEntry conv) st).1, pyStrip x = x) ∧
    (∀ x ∈ (stream.foldl (stepEntry conv) st).2, pyStrip x = x) := by
  intro stream
  induction stream with
  | nil =>
    intro st h1 h2
    exact ⟨h1, h2⟩
  | cons node rest ih =>
    intro st h1 h2
    obtain ⟨g1, g2⟩ := stepEntry_stripped conv st node h1 h2
    exact ih (stepEntry conv st node) g1 g2

/-- C10: every name returned by a successful parse has no leading or
trailing whitespace (to_romaji strips before title-casing), even though the
validation pattern by itself accepts a string ending in a space. -/
theorem c10_no_surrounding_whitespace (conv : String → String) (stream : List XNode)
    (l : List String) (h : parse_japanese_names conv stream = Except.ok l) :
    (∀ name ∈ l, pyStrip name = name) ∧
    matchesNamePattern (String.mk ['A', 'b', ' ']) = true ∧
    isValidRomaji (String.mk ['A', 'b', ' ']) = true := by
  refine ⟨?_, by decide, by decide⟩
  intro name hname
  simp only [parse_japanese_names] at h
  split_ifs at h with hemp
  injection h with h2
  rw [← h2] at hname
  have hname2 : name ∈ setUnion (collectNames conv stream).1 (collectNames conv stream).2 :=
    (List.perm_insertionSort (fun a b => strLe a b = true) _).mem_iff.mp hname
  have hstr := collect_stripped conv stream ([], []) (by simp) (by simp)
  rcases (mem_setUnion _ _ _).mp hname2 with hmem | hmem
  · exact hstr.1 name hmem
  · exact hstr.2 name hmem

/-- Witness for C10: the theorem applied to the sample stream and a concrete
converter. -/
theorem c10_no_surrounding_whitespace_witness :
    parse_japanese_names (fun _ => aikoName) sampleStream = Except.ok [aikoName] ∧
    pyStrip aikoName = aikoName ∧
    isValidRomaji (String.mk ['A', 'b', ' ']) = true := by
  have h : parse_japanese_names (fun _ => aikoName) sampleStream = Except.ok [aikoName] := by
    rfl
  have hr := c10_no_surrounding_whitespace (fun _ => aikoName) sampleStream [aikoName] h
  exact ⟨h, hr.1 aikoName (by simp), hr.2.2⟩

/-- Helper: splitting after appending one newline-free line and a newline
closes exactly that line. -/
theorem splitNLChars_append_line : ∀ (l rest : List Char), (∀ c ∈ l, c ≠ '\x0a') →
    splitNLChars (l ++ '\x0a' :: rest) = l :: splitNLChars rest := by
  intro l
  induction l with
  | nil =>
    intro rest _
    show splitNLChars ('\x0a' :: rest) = [] :: splitNLChars rest
    simp [splitNLChars]
  | cons c cs ih =>
    intro rest hcl
    have hc : c ≠ '\x0a' := hcl c (List.mem_cons_self c cs)
    simp only [List.cons_append, splitNLChars, if_neg hc, List.append_eq]
    rw [ih rest (fun x hx => hcl x (List.mem_cons_of_mem c hx))]

/-- Helper: repeated appends produce the newline-joined file contents. -/
theorem saveAll_some : ∀ (names : List String) (s : String),
    ∃ t : String, saveAll (some s) names = some t ∧
      t.data = s.data ++ names.foldr (fun n acc => n.data ++ '\x0a' :: acc) [] := by
  intro names
  induction names with
  | nil =>
    intro s
    exact ⟨s, rfl, by simp⟩
  | cons n rest ih =>
    intro s
    obtain ⟨t, ht1, ht2⟩ := ih (s ++ n ++ nlStr)
    refine ⟨t, ht1, ?_⟩
    rw [ht2, String.data_append, String.data_append]
    have hnl : nlStr.data = ['\x0a'] := rfl
    rw [hnl]
    simp [List.append_assoc]

/-- Helper: splitting the newline-joined contents recovers each line plus a
final empty line. -/
theorem splitNLChars_join : ∀ (names : List String),
    (∀ n ∈ names, ∀ c ∈ n.data, c ≠ '\x0a') →
    splitNLChars (names.foldr (fun n acc => n.data ++ '\x0a' :: acc) []) =
      names.map String.data ++ [[]] := by
  intro names
  induction names with
  | nil =>
    intro _
    rfl
  | cons n rest ih =>
    intro hcl
    simp only [List.foldr_cons, List.map_cons, List.cons_append]
    rw [splitNLChars_append_line _ _ (hcl n (List.mem_cons_self n rest))]
    rw [ih (fun m hm => hcl m (List.mem_cons_of_mem n hm))]

/-- Helper: stripping and filtering the recovered lines of clean names gives
back exactly the names. -/
theorem load_lines_clean : ∀ (names : List String),
    (∀ n ∈ names, pyStrip n = n ∧ n ≠ emptyStr) →
    ((names.map String.data ++ [[]]).map (fun l => String.mk (stripChars l))).filter
      (fun line => line != emptyStr) = names := by
  intro names
  induction names with
  | nil =>
    intro _
    rfl
  | cons n rest ih =>
    intro h
    obtain ⟨h1, h2⟩ := h n (List.mem_cons_self n rest)
    have hmk : String.mk (stripChars n.data) = n := h1
    simp only [List.map_cons, List.cons_append, List.filter_cons, hmk]
    have hb : (n != emptyStr) = true := by
      simp [bne_iff_ne, h2]
    rw [hb]
    simp only [if_true]
    rw [ih (fun m hm => h m (List.mem_cons_of_mem n hm))]

/-- Helper: the cache round trip for stripped, non-empty, newline-free
names. -/
theorem load_saveAll (names : List String)
    (hclean : ∀ n ∈ names, pyStrip n = n ∧ n ≠ emptyStr ∧ ∀ c ∈ n.data, c ≠ '\x0a') :
    load_from_jp_names_file (saveAll none names) = names := by
  cases names with
  | nil => rfl
  | cons n rest =>
    obtain ⟨t, ht1, ht2⟩ := saveAll_some rest (emptyStr ++ n ++ nlStr)
    have hs : saveAll none (n :: rest) = some t := ht1
    rw [hs]
    have ht3 : t.data = (n :: rest).foldr (fun m acc => m.data ++ '\x0a' :: acc) [] := by
      rw [ht2, String.data_append, String.data_append]
      have hnl : nlStr.data = ['\x0a'] := rfl
      have hemp : emptyStr.data = [] := rfl
      rw [hnl, hemp]
      simp [List.append_assoc]
    simp only [load_from_jp_names_file]
    rw [ht3, splitNLChars_join (n :: rest) (fun m hm => (hclean m hm).2.2)]
    exact load_lines_clean (n :: rest) (fun m hm => ⟨(hclean m hm).1, (hclean m hm).2.1⟩)

/-- C6 counterexample: the name " a " is non-blank and distinct, yet the
round trip returns the trimmed "a", not " a ". -/
theorem c6_roundtrip_counterexample :
    load_from_jp_names_file (saveAll none [spacePaddedA]) = [pyStrip spacePaddedA] ∧
    pyStrip spacePaddedA ≠ emptyStr ∧
    pyStrip spacePaddedA ≠ spacePaddedA ∧
    load_from_jp_names_file (saveAll none [spacePaddedA]) ≠ [spacePaddedA] := by
  decide

/-- C6 (amended): for every sequence of distinct names that are non-empty,
free of surrounding whitespace and contain no newline, appending each via
`save_to_jp_names_file` and then loading returns exactly those names in file
order; loading an absent cache returns the empty sequence. -/
theorem c6_roundtrip (names : List String) (_hnodup : names.Nodup)
    (hclean : ∀ n ∈ names, pyStrip n = n ∧ n ≠ emptyStr ∧ ∀ c ∈ n.data, c ≠ '\x0a') :
    load_from_jp_names_file (saveAll none names) = names ∧
    load_from_jp_names_file none = [] :=
  ⟨load_saveAll names hclean, rfl⟩

/-- Witness for C6: the round trip evaluated on two concrete names. -/
theorem c6_roundtrip_witness :
    ([aikoName, smithName] : List String).Nodup ∧
    load_from_jp_names_file (saveAll none [aikoName, smithName]) = [aikoName, smithName] ∧
    load_from_jp_names_file none = [] := by
  have h := c6_roundtrip [aikoName, smithName] (by decide) (by decide)
  exact ⟨by decide, h.1, h.2⟩

/-- C7 (code bug): with an empty loaded given-name list, `main` returns 1
and prints the failure message, but the module-level call discards the
return value, so the interpreter exit status is 0, not the non-zero status
the spec describes; in the successful case the generated name and its slug
are printed and `main` returns 0. -/
theorem c7_exit_status (west_surnames : List String) (r1 r2 : Nat) :
    pyMain [] west_surnames r1 r2 = Except.ok (1, [noNamesMsg]) ∧
    scriptExitCode [] west_surnames r1 r2 = 0 ∧
    (∀ jp_names : List String, jp_names ≠ [] → west_surnames ≠ [] →
      ∃ out, generate_name jp_names west_surnames r1 r2 = some out ∧
        pyMain jp_names west_surnames r1 r2 = Except.ok (0, [out, slugOf out])) := by
  refine ⟨rfl, rfl, ?_⟩
  intro jp hjp hw
  cases jp with
  | nil => exact absurd rfl hjp
  | cons x xs =>
    cases west_surnames with
    | nil => exact absurd rfl hw
    | cons y ys => exact ⟨_, rfl, rfl⟩

/-- Witness for C7: both branches evaluated at concrete inputs. -/
theorem c7_exit_status_witness :
    pyMain [] [smithName] 0 0 = Except.ok (1, [noNamesMsg]) ∧
    scriptExitCode [] [smithName] 0 0 = 0 ∧
    (∃ out, generate_name [aikoName] [smithName] 0 0 = some out ∧
      pyMain [aikoName] [smithName] 0 0 = Except.ok (0, [out, slugOf out])) := by
  have h := c7_exit_status [smithName] 0 0
  exact ⟨h.1, h.2.1, h.2.2 [aikoName] (by decide) (by decide)⟩
